import Mathlib

/-!
Verification development for the Arabic Phon Bot transliteration pipeline
(src/index.js).  The pipeline and its helpers are embedded as executable
Lean functions over `List Char` / `String`; JavaScript strings are modelled
as their sequences of UTF-16 code units, which for all characters involved
here (BMP only) coincide with Unicode code points.

Modelling conventions:
  - JavaScript falsy-string tests (`if (!text)`) become `= ""` tests,
    since the only falsy string is the empty string.
  - `charAt(0).toUpperCase()` / `toLowerCase()` are modelled with
    `Char.toUpper` / `Char.toLower`; these agree with JavaScript on the
    ASCII range, and every string the pipeline capitalizes or lowercases
    is built from the ASCII values of the letter table.
  - the external resource (`arabic-transliteration` npm package) is
    modelled separately (`ExtLib` below); `smartTransliterate` is the
    code path with the package absent (`transliterateLib === null`).
-/

/-- The Unicode right-to-left mark U+200F removed by the normalizer. -/
def rlmChar : Char := Char.ofNat 0x200F

/-- The shadda (gemination) combining mark U+0651. -/
def shaddaChar : Char := Char.ofNat 0x651

/-- The ASCII apostrophe, value of the hamza entries of the letter table. -/
def aposChar : Char := Char.ofNat 39

/-- JavaScript whitespace: the characters matched by the regex class
backslash-s, which is also the set removed by `String.prototype.trim`. -/
def isJsWs (c : Char) : Bool :=
  let n := c.toNat
  n == 0x9 || n == 0xA || n == 0xB || n == 0xC || n == 0xD || n == 0x20 ||
  n == 0xA0 || n == 0x1680 || (0x2000 ≤ n && n ≤ 0x200A) || n == 0x2028 ||
  n == 0x2029 || n == 0x202F || n == 0x205F || n == 0x3000 || n == 0xFEFF

/-- `replace(/X+/g, rep)` for a character class `p`: every maximal run of
characters satisfying `p` is replaced by the single character `rep`.
The flag records whether the previous character was part of a run. -/
def collapseRunsAux (p : Char → Bool) (rep : Char) : Bool → List Char → List Char
  | _, [] => []
  | prev, c :: cs =>
    if p c then
      if prev then collapseRunsAux p rep true cs
      else rep :: collapseRunsAux p rep true cs
    else c :: collapseRunsAux p rep false cs

def collapseRuns (p : Char → Bool) (rep : Char) (l : List Char) : List Char :=
  collapseRunsAux p rep false l

/-- `replace(/\s+/g, " ")`. -/
def collapseWs (l : List Char) : List Char := collapseRuns isJsWs ' ' l

/-- The global replacement of hyphen runs by a single hyphen. -/
def collapseDashes (l : List Char) : List Char :=
  collapseRuns (fun c => c == '-') '-' l

/-- `trim()`: drop JavaScript whitespace from both ends. -/
def trimRightWs (l : List Char) : List Char :=
  (l.reverse.dropWhile isJsWs).reverse

def trimWs (l : List Char) : List Char :=
  (trimRightWs l).dropWhile isJsWs

/-- `split(" ")` on a literal single-space separator (also the model of
`split(/\s+/)` after whitespace has been collapsed to single spaces). -/
def splitOnSpace : List Char → List (List Char)
  | [] => [[]]
  | c :: cs =>
    if c = ' ' then [] :: splitOnSpace cs
    else
      match splitOnSpace cs with
      | [] => [[c]]
      | w :: ws => (c :: w) :: ws

/-- `join(" ")`. -/
def joinSpace : List (List Char) → List Char
  | [] => []
  | [w] => w
  | w :: ws => w ++ ' ' :: joinSpace ws

/-- Character-wise concatenation map (used for the letter-table loop and
for single-character global regex replacements whose outputs are never
matched by a later pattern). -/
def concatMap (f : Char → List Char) : List Char → List Char
  | [] => []
  | c :: cs => f c ++ concatMap f cs

/-- `normalizeArabicKeepShadda` on the character list: remove U+200F,
collapse whitespace runs to single spaces, trim. -/
def normalizeList (l : List Char) : List Char :=
  trimWs (collapseWs (l.filter (fun c => c != rlmChar)))

/-- src/index.js `normalizeArabicKeepShadda`: keep diacritics (notably
shadda), remove the right-to-left mark, collapse whitespace, trim. -/
def normalizeArabicKeepShadda (text : String) : String :=
  if text = "" then "" else String.mk (normalizeList text.data)

/-- One character of `stripDiacritics`: the diacritic range U+064B-U+0652
and U+0670 are removed, hamza-bearing alef forms fold to bare alef, alef
maksura and hamza-on-yaa fold to yaa, hamza-on-waw folds to waw, tatweel
U+0640 is removed (the taa-marbuta replacement in the source is the
identity); every other character passes through. -/
def stripChar (c : Char) : Option Char :=
  if 0x64B ≤ c.toNat ∧ c.toNat ≤ 0x652 then none
  else if c.toNat = 0x670 then none
  else if c = 'إ' ∨ c = 'أ' ∨ c = 'آ' then some 'ا'
  else if c = 'ى' then some 'ي'
  else if c = 'ؤ' then some 'و'
  else if c = 'ئ' then some 'ي'
  else if c.toNat = 0x640 then none
  else some c

def stripList (l : List Char) : List Char :=
  trimWs (collapseWs (l.filterMap stripChar))

/-- src/index.js `stripDiacritics`. -/
def stripDiacritics (text : String) : String :=
  if text = "" then "" else String.mk (stripList text.data)

/-- src/index.js `arabicToLatin` letter table (values as character lists). -/
def arabicToLatin (c : Char) : Option (List Char) :=
  match c with
  | 'ا' | 'أ' | 'إ' | 'آ' => some ['a']
  | 'ب' => some ['b']
  | 'ت' => some ['t']
  | 'ث' => some ['t', 'h']
  | 'ج' => some ['j']
  | 'ح' => some ['h']
  | 'خ' => some ['k', 'h']
  | 'د' => some ['d']
  | 'ذ' => some ['d', 'h']
  | 'ر' => some ['r']
  | 'ز' => some ['z']
  | 'س' => some ['s']
  | 'ش' => some ['s', 'h']
  | 'ص' => some ['s']
  | 'ض' => some ['d']
  | 'ط' => some ['t']
  | 'ظ' => some ['z']
  | 'ع' => some ['a']
  | 'غ' => some ['g', 'h']
  | 'ف' => some ['f']
  | 'ق' => some ['q']
  | 'ك' => some ['k']
  | 'ل' => some ['l']
  | 'م' => some ['m']
  | 'ن' => some ['n']
  | 'ه' => some ['h']
  | 'و' => some ['w']
  | 'ي' => some ['y']
  | 'ء' => some [aposChar]
  | 'ئ' => some ['y']
  | 'ؤ' => some ['w']
  | 'ة' => some ['a']
  | 'ى' => some ['a']
  | _ => none

/-- src/index.js `sunLetters`. -/
def sunLetters : List Char :=
  ['ت', 'ث', 'د', 'ذ', 'ر', 'ز', 'س', 'ش', 'ص', 'ض', 'ط', 'ظ', 'ل', 'ن']

/-- src/index.js `capitalizeWord` on a character list: uppercase the first
character, keep the rest (empty input is returned unchanged). -/
def capitalizeWord : List Char → List Char
  | [] => []
  | c :: cs => c.toUpper :: cs

/-- The per-character contribution of the `fallbackTransliterate` loop:
mapped letters contribute their Latin value, a space is kept, everything
else is dropped. -/
def fallbackChar (c : Char) : List Char :=
  match arabicToLatin c with
  | some m => m
  | none => if c = ' ' then [' '] else []

def fallbackList (l : List Char) : List Char :=
  let out := concatMap fallbackChar (stripList l)
  joinSpace ((splitOnSpace (collapseWs out)).map capitalizeWord)

/-- src/index.js `fallbackTransliterate`: strip, map each character via the
letter table, then split on whitespace runs, capitalize each word and
rejoin with single spaces. -/
def fallbackTransliterate (text : String) : String :=
  if text = "" then "" else String.mk (fallbackList text.data)

/-- The single-character scientific-diacritic rewrites of
`scientificToPhonetic` (macron vowels doubled, underdotted consonants
plain, pharyngeal and hamza marks to a or apostrophe, hyphen to space);
no rewrite output is matched by a later pattern, so the sequential global
replaces are equivalent to this character-wise map. -/
def phonChar (c : Char) : List Char :=
  if c = 'ā' then ['a', 'a']
  else if c = 'ī' then ['i', 'i']
  else if c = 'ū' then ['u', 'u']
  else if c = 'ḥ' then ['h']
  else if c = 'ḍ' then ['d']
  else if c = 'ṣ' then ['s']
  else if c = 'ṭ' then ['t']
  else if c = 'ẓ' then ['z']
  else if c = 'ʿ' then ['a']
  else if c = 'ʾ' then [aposChar]
  else if c.toNat = 0x2019 then [aposChar]
  else if c = 'ˁ' then ['a']
  else if c = '-' then [' ']
  else [c]

/-- src/index.js `corrections` dictionary (keys are the lowercase words). -/
def corrections (w : List Char) : Option (List Char) :=
  if w = "mhmd".data then some "Muhammad".data
  else if w = "muhammad".data then some "Muhammad".data
  else if w = "mohammad".data then some "Muhammad".data
  else if w = "mohamed".data then some "Muhammad".data
  else if w = "ahmad".data then some "Ahmad".data
  else if w = "ali".data then some "Ali".data
  else if w = "yusuf".data then some "Yusuf".data
  else if w = "fatima".data then some "Fatima".data
  else if w = "abd".data then some "Abd".data
  else if w = "bin".data then some "bin".data
  else none

/-- The per-word step of `scientificToPhonetic`: empty words stay empty,
dictionary hits are replaced, misses are capitalized. -/
def correctWord (w : List Char) : List Char :=
  if w = [] then []
  else
    match corrections w with
    | some v => v
    | none => capitalizeWord w

def scientificList (l : List Char) : List Char :=
  let s := (trimWs (collapseWs (concatMap phonChar l))).map Char.toLower
  joinSpace ((splitOnSpace s).map correctWord)

/-- src/index.js `scientificToPhonetic`. -/
def scientificToPhonetic (scientific : String) : String :=
  if scientific = "" then "" else String.mk (scientificList scientific.data)

/-- Case-insensitive prefix test (the regex built from a mapped letter
sequence with the i flag; every mapped value is ASCII, where the i flag
is plain lowercase-folding). -/
def ciPrefix : List Char → List Char → Bool
  | [], _ => true
  | _ :: _, [] => false
  | p :: ps, c :: cs => (p.toLower == c.toLower) && ciPrefix ps cs

/-- `out.replace(new RegExp(pat, "i"), repl)`: replace the first
case-insensitive occurrence of `pat`, leave `out` unchanged if absent. -/
def replaceFirstCI (pat repl : List Char) : List Char → List Char
  | [] => []
  | c :: cs =>
    if ciPrefix pat (c :: cs) then repl ++ (c :: cs).drop pat.length
    else c :: replaceFirstCI pat repl cs

/-- The regex `/^al[-\s]?/i`: if `out` starts with a-l case-insensitively,
return the remainder with one optional following hyphen or whitespace
character consumed, else `none`. -/
def stripAlHead (out : List Char) : Option (List Char) :=
  match out with
  | a :: l :: rest =>
    if (a = 'a' ∨ a = 'A') ∧ (l = 'l' ∨ l = 'L') then
      some (match rest with
            | [] => []
            | c :: rest2 => if c = '-' ∨ isJsWs c = true then rest2 else c :: rest2)
    else none
  | _ => none

/-- `out.replace(/^al[-\s]?/i, pre)` where `pre` already carries the
trailing hyphen. -/
def replaceAlPrefix (pre out : List Char) : List Char :=
  match stripAlHead out with
  | some rest => pre ++ rest
  | none => out

/-- Rule 1 of `applyContextualRules`: sun-letter assimilation of the
definite article.  `raw[2] || raw[1]` is modelled by taking the third
character when present and the second otherwise.  The source applies the
same (case-insensitive) replacement twice. -/
def alRule (raw out : List Char) : List Char :=
  match raw with
  | c0 :: c1 :: rest =>
    if c0 = 'ا' ∧ c1 = 'ل' then
      let secondLetter := match rest with | c2 :: _ => c2 | [] => c1
      if sunLetters.contains secondLetter then
        let mapped := (arabicToLatin secondLetter).getD []
        let pre := 'A' :: mapped ++ ['-']
        replaceAlPrefix pre (replaceAlPrefix pre out)
      else out
    else out
  | _ => out

/-- Rule 2 of `applyContextualRules`: the index loop over `raw`; whenever
the next character is shadda and the current character is mapped, the
first case-insensitive occurrence of its mapping in `out` is doubled. -/
def shaddaPass : List Char → List Char → List Char
  | [], out => out
  | [_], out => out
  | c :: d :: rest, out =>
    shaddaPass (d :: rest)
      (if d = shaddaChar then
        match arabicToLatin c with
        | some m => replaceFirstCI m (m ++ m) out
        | none => out
      else out)

/-- The test `/[aA]$/.test(out)` of rule 3. -/
def endsInA (l : List Char) : Bool :=
  match l.getLast? with
  | some c => c == 'a' || c == 'A'
  | none => false

/-- The closing lines of `applyContextualRules`: collapse whitespace,
collapse hyphen runs, trim, then re-capitalize every space-separated word. -/
def finalizeOut (l : List Char) : List Char :=
  joinSpace ((splitOnSpace (trimWs (collapseDashes (collapseWs l)))).map capitalizeWord)

def applyRulesList (orig out0 : List Char) : List Char :=
  let raw := trimWs orig
  let out1 := alRule raw out0
  let out2 := if raw.contains shaddaChar then shaddaPass raw out1 else out1
  let out3 :=
    if raw.getLast? = some 'ة' then
      if endsInA out2 then out2 else out2 ++ ['a']
    else out2
  finalizeOut out3

/-- src/index.js `applyContextualRules`: if either argument is empty the
candidate is returned unchanged; otherwise the three contextual rules are
applied to a working copy of the candidate and the result re-finalized. -/
def applyContextualRules (originalArabic phoneticLatin : String) : String :=
  if originalArabic = "" ∨ phoneticLatin = "" then phoneticLatin
  else String.mk (applyRulesList originalArabic.data phoneticLatin.data)

/-- src/index.js `smartTransliterate` on the code path where the optional
`arabic-transliteration` package failed to load (`transliterateLib` is
null), so the internal fallback romanizer is used. -/
def smartTransliterate (arabicText : String) : String :=
  if arabicText = "" then "Nom vide"
  else
    let rawKeep := normalizeArabicKeepShadda arabicText
    let stripped := stripDiacritics rawKeep
    let scientific := fallbackTransliterate stripped
    let phonetic := scientificToPhonetic scientific
    applyContextualRules rawKeep phonetic

/-- Case-sensitive prefix test on character lists. -/
def beginsWith : List Char → List Char → Bool
  | [], _ => true
  | _ :: _, [] => false
  | p :: ps, c :: cs => (p == c) && beginsWith ps cs

/-- The leading space-delimited token of a string. -/
def firstTok (l : List Char) : List Char :=
  l.takeWhile (fun c => c != ' ')

/-- Case-insensitive substring test. -/
def containsCI (pat : List Char) : List Char → Bool
  | [] => ciPrefix pat []
  | c :: cs => ciPrefix pat (c :: cs) || containsCI pat cs

/-- The mapping of a letter from the shared table, empty when unmapped. -/
def mappingOf (c : Char) : List Char :=
  (arabicToLatin c).getD []

/-- Every key of `arabicToLatin` except alef maksura. -/
def mappedLettersNoMaksura : List Char :=
  ['ا', 'أ', 'إ', 'آ', 'ب', 'ت', 'ث', 'ج', 'ح', 'خ', 'د', 'ذ', 'ر', 'ز',
   'س', 'ش', 'ص', 'ض', 'ط', 'ظ', 'ع', 'غ', 'ف', 'ق', 'ك', 'ل', 'م', 'ن',
   'ه', 'و', 'ي', 'ء', 'ئ', 'ؤ', 'ة']

/-- A JavaScript value as far as the pipeline inspects it: a string, or a
non-string of which only truthiness matters. -/
inductive JsVal where
  | str (s : String)
  | other (truthy : Bool)
deriving DecidableEq

/-- The outcome of one call into the external transliteration resource. -/
inductive LibCallResult where
  | val (v : JsVal)
  | exc
deriving DecidableEq

/-- The external `arabic-transliteration` resource: `withOpts` models the
call with the options object, `plain` the bare retry call. -/
structure ExtLib where
  withOpts : String → LibCallResult
  plain : String → LibCallResult

/-- JavaScript truthiness combined with the string type test of
`if (!scientific || typeof scientific !== "string")`. -/
def truthyString : JsVal → Bool
  | .str s => s != ""
  | .other _ => false

/-- The `scientific` computation of `smartTransliterate` when the resource
is present.  All three call sites sit under try blocks: the optioned first
call and the falsy/non-string retry are inside the outer try, whose catch
makes a third, bare call inside a nested try that degrades to the empty
string when it throws too.  No exception escapes this computation, so it
is a total function into JavaScript values; with the deterministic
resource model the second and third calls coincide. -/
def computeScientific (lib : ExtLib) (stripped : String) : JsVal :=
  match lib.withOpts stripped with
  | .val v =>
    if truthyString v then v
    else
      match lib.plain stripped with
      | .val v2 => v2
      | .exc =>
        match lib.plain stripped with
        | .val v3 => v3
        | .exc => .str ""
  | .exc =>
    match lib.plain stripped with
    | .val v2 => v2
    | .exc => .str ""

/-- `scientificToPhonetic` applied to an arbitrary JavaScript value: a
falsy value returns the empty string, a truthy non-string crashes on the
first method call (`.replace` is not a function), a string is processed
normally. -/
def scientificToPhoneticJs : JsVal → Except Unit String
  | .str s => .ok (scientificToPhonetic s)
  | .other true => .error ()
  | .other false => .ok ""

/-- src/index.js `smartTransliterate` with the optional resource made
explicit: `none` is the fallback path (equal to `smartTransliterate`),
`some lib` the path through the resource.  The result is `.error` exactly
when an exception escapes to the caller. -/
def smartTransliterateWithLib (lib? : Option ExtLib) (arabicText : String) :
    Except Unit String :=
  if arabicText = "" then .ok "Nom vide"
  else
    let rawKeep := normalizeArabicKeepShadda arabicText
    let stripped := stripDiacritics rawKeep
    match lib? with
    | none =>
      .ok (applyContextualRules rawKeep
            (scientificToPhonetic (fallbackTransliterate stripped)))
    | some lib =>
      match scientificToPhoneticJs (computeScientific lib stripped) with
      | .error e => .error e
      | .ok phonetic => .ok (applyContextualRules rawKeep phonetic)

/-- A resource that misbehaves by returning a truthy non-string value
(for example a number) from both call shapes. -/
def truthyNonStringLib : ExtLib where
  withOpts := fun _ => .val (.other true)
  plain := fun _ => .val (.other true)

/-- A resource is benign when every value it returns is a string; it may
throw on any call, since all the call sites are guarded by try blocks. -/
def BenignLib (lib : ExtLib) : Prop :=
  (∀ s v, lib.withOpts s = .val v → ∃ t, v = .str t) ∧
  (∀ s v, lib.plain s = .val v → ∃ t, v = .str t)

/-- A benign resource that always returns the empty string. -/
def emptyStringLib : ExtLib where
  withOpts := fun _ => .val (.str "")
  plain := fun _ => .val (.str "")

/-! Helper lemmas: characters emitted by run-collapsing, identity cases of
the whitespace machinery, and preservation of a trailing character. -/

/-- No whitespace (or run-class) pair is adjacent. -/
def PairSep (p : Char → Bool) (l : List Char) : Prop :=
  List.Chain' (fun a b => ¬(p a = true ∧ p b = true)) l

/-- The head, when present, is outside the run class. -/
def HeadNot (p : Char → Bool) (l : List Char) : Prop :=
  ∀ y ∈ l.head?, p y = false

/-- The last element, when present, is outside the run class. -/
def LastNot (p : Char → Bool) (l : List Char) : Prop :=
  ∀ y ∈ l.getLast?, p y = false

theorem mem_collapseRunsAux {p : Char → Bool} {rep : Char} {b : Bool}
    {l : List Char} {c : Char} (h : c ∈ collapseRunsAux p rep b l) :
    c = rep ∨ c ∈ l := by
  induction l generalizing b with
  | nil => simp [collapseRunsAux] at h
  | cons d ds ih =>
    simp only [collapseRunsAux] at h
    by_cases hd : p d = true
    · rw [if_pos hd] at h
      cases b with
      | true =>
        rcases ih h with h1 | h1
        · exact Or.inl h1
        · exact Or.inr (List.mem_cons_of_mem _ h1)
      | false =>
        rcases List.mem_cons.mp h with h1 | h1
        · exact Or.inl h1
        · rcases ih h1 with h2 | h2
          · exact Or.inl h2
          · exact Or.inr (List.mem_cons_of_mem _ h2)
    · rw [if_neg hd] at h
      rcases List.mem_cons.mp h with h1 | h1
      · exact Or.inr (h1 ▸ List.mem_cons_self d ds)
      · rcases ih h1 with h2 | h2
        · exact Or.inl h2
        · exact Or.inr (List.mem_cons_of_mem _ h2)

theorem collapseRunsAux_runClass {p : Char → Bool} {rep : Char} {b : Bool}
    {l : List Char} {c : Char} (h : c ∈ collapseRunsAux p rep b l)
    (hc : p c = true) : c = rep := by
  induction l generalizing b with
  | nil => simp [collapseRunsAux] at h
  | cons d ds ih =>
    simp only [collapseRunsAux] at h
    by_cases hd : p d = true
    · rw [if_pos hd] at h
      cases b with
      | true => exact ih h
      | false =>
        rcases List.mem_cons.mp h with h1 | h1
        · exact h1
        · exact ih h1
    · rw [if_neg hd] at h
      rcases List.mem_cons.mp h with h1 | h1
      · exact absurd (h1 ▸ hc) (by simp [hd])
      · exact ih h1

theorem headNot_collapseRunsAux_true {p : Char → Bool} (rep : Char)
    (l : List Char) : HeadNot p (collapseRunsAux p rep true l) := by
  induction l with
  | nil => intro y hy; simp [collapseRunsAux] at hy
  | cons d ds ih =>
    simp only [collapseRunsAux]
    by_cases hd : p d = true
    · rw [if_pos hd]; exact ih
    · rw [if_neg hd]; intro y hy
      simp only [List.head?_cons, Option.mem_def, Option.some.injEq] at hy
      subst hy
      simpa using hd

theorem pairSep_collapseRunsAux {p : Char → Bool} {rep : Char}
    (l : List Char) (b : Bool) : PairSep p (collapseRunsAux p rep b l) := by
  induction l generalizing b with
  | nil => exact List.chain'_nil
  | cons d ds ih =>
    simp only [collapseRunsAux]
    by_cases hd : p d = true
    · rw [if_pos hd]
      cases b with
      | true => exact ih true
      | false =>
        refine List.chain'_cons'.mpr ⟨?_, ih true⟩
        intro y hy
        have := headNot_collapseRunsAux_true (p := p) rep ds y hy
        simp [this]
    · rw [if_neg hd]
      refine List.chain'_cons'.mpr ⟨?_, ih false⟩
      intro y _
      simp [hd]

theorem collapseRunsAux_id {p : Char → Bool} {rep : Char} {l : List Char}
    (h1 : ∀ c ∈ l, p c = true → c = rep) (h2 : PairSep p l) :
    collapseRunsAux p rep false l = l ∧
      (HeadNot p l → collapseRunsAux p rep true l = l) := by
  induction l with
  | nil => exact ⟨rfl, fun _ => rfl⟩
  | cons d ds ih =>
    obtain ⟨hsep, h2t⟩ := List.chain'_cons'.mp h2
    have h1t : ∀ c ∈ ds, p c = true → c = rep :=
      fun c hc => h1 c (List.mem_cons_of_mem _ hc)
    obtain ⟨ihf, iht⟩ := ih h1t h2t
    by_cases hd : p d = true
    · have hds : HeadNot p ds := by
        intro y hy
        have := hsep y hy
        by_contra hcon
        exact this ⟨hd, by simpa using hcon⟩
      have hdrep : d = rep := h1 d (List.mem_cons_self d ds) hd
      constructor
      · have hstep : collapseRunsAux p rep false (d :: ds) =
            rep :: collapseRunsAux p rep true ds := by
          simp [collapseRunsAux, hd]
        rw [hstep, iht hds, hdrep]
      · intro hh
        have := hh d (by simp)
        rw [this] at hd
        exact absurd hd (by simp)
    · constructor
      · simp only [collapseRunsAux, if_neg hd, ihf]
      · intro _
        simp only [collapseRunsAux, if_neg hd, ihf]

theorem collapseRunsAux_concat {p : Char → Bool} {c : Char} (rep : Char)
    (hc : p c = false) (l : List Char) (b : Bool) :
    ∃ m, collapseRunsAux p rep b (l ++ [c]) = m ++ [c] := by
  induction l generalizing b with
  | nil =>
    refine ⟨[], ?_⟩
    simp [collapseRunsAux, hc]
  | cons d ds ih =>
    by_cases hd : p d = true
    · cases b with
      | true =>
        obtain ⟨m, hm⟩ := ih true
        exact ⟨m, by simp [collapseRunsAux, hd, hm]⟩
      | false =>
        obtain ⟨m, hm⟩ := ih true
        exact ⟨rep :: m, by simp [collapseRunsAux, hd, hm]⟩
    · obtain ⟨m, hm⟩ := ih false
      exact ⟨d :: m, by simp [collapseRunsAux, hd, hm]⟩

theorem headNot_dropWhile (p : Char → Bool) (l : List Char) :
    HeadNot p (l.dropWhile p) := by
  induction l with
  | nil => intro y hy; simp at hy
  | cons d ds ih =>
    by_cases hd : p d = true
    · rw [List.dropWhile_cons, if_pos hd]; exact ih
    · rw [List.dropWhile_cons, if_neg hd]
      intro y hy
      simp only [List.head?_cons, Option.mem_def, Option.some.injEq] at hy
      subst hy
      simpa using hd

theorem dropWhile_id {p : Char → Bool} {l : List Char} (h : HeadNot p l) :
    l.dropWhile p = l := by
  cases l with
  | nil => rfl
  | cons d ds =>
    have := h d (by simp)
    rw [List.dropWhile_cons, if_neg (by simp [this])]

theorem pairSep_dropWhile {p : Char → Bool} {l : List Char}
    (h : PairSep p l) : PairSep p (l.dropWhile p) := by
  induction l with
  | nil => exact h
  | cons d ds ih =>
    by_cases hd : p d = true
    · rw [List.dropWhile_cons, if_pos hd]
      exact ih (List.chain'_cons'.mp h).2
    · rw [List.dropWhile_cons, if_neg hd]
      exact h

theorem dropWhile_concat {p : Char → Bool} {c : Char} (hc : p c = false)
    (l : List Char) : ∃ m, (l ++ [c]).dropWhile p = m ++ [c] := by
  induction l with
  | nil => exact ⟨[], by simp [List.dropWhile_cons, hc]⟩
  | cons d ds ih =>
    by_cases hd : p d = true
    · rw [List.cons_append, List.dropWhile_cons, if_pos hd]
      exact ih
    · exact ⟨d :: ds, by rw [List.cons_append, List.dropWhile_cons, if_neg hd]⟩

theorem pairSep_reverse {p : Char → Bool} {l : List Char}
    (h : PairSep p l) : PairSep p l.reverse := by
  rw [PairSep, List.chain'_reverse]
  exact h.imp (fun a b hab => fun ⟨x, y⟩ => hab ⟨y, x⟩)

theorem trimRightWs_concat {c : Char} (hc : isJsWs c = false)
    (l : List Char) : trimRightWs (l ++ [c]) = l ++ [c] := by
  rw [trimRightWs, List.reverse_append]
  simp only [List.reverse_cons, List.reverse_nil, List.nil_append,
    List.singleton_append, List.dropWhile_cons, hc]
  simp

theorem trimWs_concat {c : Char} (hc : isJsWs c = false) (l : List Char) :
    ∃ m, trimWs (l ++ [c]) = m ++ [c] := by
  rw [trimWs, trimRightWs_concat hc]
  exact dropWhile_concat hc l

theorem splitOnSpace_ne_nil (l : List Char) : splitOnSpace l ≠ [] := by
  cases l with
  | nil => simp [splitOnSpace]
  | cons c cs =>
    by_cases hc : c = ' '
    · simp [splitOnSpace, hc]
    · simp only [splitOnSpace, if_neg hc]
      cases splitOnSpace cs <;> simp

theorem splitOnSpace_cons (c : Char) (cs : List Char) :
    splitOnSpace (c :: cs) =
      if c = ' ' then [] :: splitOnSpace cs
      else
        match splitOnSpace cs with
        | [] => [[c]]
        | w :: ws => (c :: w) :: ws := rfl

theorem splitOnSpace_concat {c : Char} (hc : c ≠ ' ') (l : List Char) :
    ∃ ws w, splitOnSpace (l ++ [c]) = ws ++ [w ++ [c]] := by
  induction l with
  | nil =>
    refine ⟨[], [], ?_⟩
    simp [splitOnSpace, splitOnSpace_cons, hc]
  | cons d ds ih =>
    obtain ⟨ws, w, hw⟩ := ih
    by_cases hd : d = ' '
    · refine ⟨[] :: ws, w, ?_⟩
      rw [List.cons_append, splitOnSpace_cons, if_pos hd, hw]
      rfl
    · cases ws with
      | nil =>
        refine ⟨[], d :: w, ?_⟩
        rw [List.cons_append, splitOnSpace_cons, if_neg hd, hw]
        simp
      | cons x xs =>
        refine ⟨(d :: x) :: xs, w, ?_⟩
        rw [List.cons_append, splitOnSpace_cons, if_neg hd, hw]
        simp

theorem joinSpace_cons_cons (x y : List Char) (ys : List (List Char)) :
    joinSpace (x :: y :: ys) = x ++ ' ' :: joinSpace (y :: ys) := rfl

theorem joinSpace_concat (ws : List (List Char)) (w : List Char) :
    ∃ m, joinSpace (ws ++ [w]) = m ++ w := by
  induction ws with
  | nil => exact ⟨[], rfl⟩
  | cons x xs ih =>
    obtain ⟨m, hm⟩ := ih
    cases xs with
    | nil => exact ⟨x ++ [' '], by simp [joinSpace_cons_cons, joinSpace]⟩
    | cons y ys =>
      refine ⟨x ++ ' ' :: m, ?_⟩
      simp only [List.cons_append] at hm ⊢
      rw [joinSpace_cons_cons, hm]
      simp

theorem capitalizeWord_concat (w : List Char) (c : Char) :
    ∃ m c2, capitalizeWord (w ++ [c]) = m ++ [c2] ∧ (c2 = c ∨ c2 = c.toUpper) := by
  cases w with
  | nil => exact ⟨[], c.toUpper, rfl, Or.inr rfl⟩
  | cons d ds => exact ⟨d.toUpper :: ds, c, rfl, Or.inl rfl⟩

theorem capitalizeWord_ne_nil {w : List Char} (h : w ≠ []) :
    capitalizeWord w ≠ [] := by
  cases w with
  | nil => exact absurd rfl h
  | cons d ds => simp [capitalizeWord]

theorem concatMap_append (f : Char → List Char) (l1 l2 : List Char) :
    concatMap f (l1 ++ l2) = concatMap f l1 ++ concatMap f l2 := by
  induction l1 with
  | nil => rfl
  | cons d ds ih => simp [concatMap, ih]

theorem exists_concat_of_getLast? {l : List Char} {a : Char}
    (h : l.getLast? = some a) : ∃ t, l = t ++ [a] := by
  induction l with
  | nil => simp at h
  | cons d ds ih =>
    cases ds with
    | nil =>
      simp only [List.getLast?_singleton, Option.some.injEq] at h
      exact ⟨[], by simp [h]⟩
    | cons e es =>
      rw [List.getLast?_cons_cons] at h
      obtain ⟨t, ht⟩ := ih h
      exact ⟨d :: t, by rw [List.cons_append, ← ht]⟩

theorem corrections_ne_nil {w v : List Char} (h : corrections w = some v) :
    v ≠ [] := by
  unfold corrections at h
  repeat' split at h
  all_goals cases h
  all_goals decide

theorem mem_dropWhile_imp {p : Char → Bool} {l : List Char} {c : Char}
    (h : c ∈ l.dropWhile p) : c ∈ l :=
  (List.dropWhile_suffix p).sublist.subset h

theorem mem_trimRightWs_imp {l : List Char} {c : Char}
    (h : c ∈ trimRightWs l) : c ∈ l := by
  rw [trimRightWs, List.mem_reverse] at h
  exact List.mem_reverse.mp (mem_dropWhile_imp h)

theorem mem_trimWs_imp {l : List Char} {c : Char}
    (h : c ∈ trimWs l) : c ∈ l :=
  mem_trimRightWs_imp (mem_dropWhile_imp h)

theorem lastNot_trimRightWs (l : List Char) : LastNot isJsWs (trimRightWs l) := by
  intro y hy
  rw [trimRightWs, List.getLast?_reverse] at hy
  exact headNot_dropWhile isJsWs l.reverse y hy

theorem lastNot_of_suffix {p : Char → Bool} {l1 l2 : List Char}
    (hs : l1 <:+ l2) (h : LastNot p l2) : LastNot p l1 := by
  obtain ⟨t, rfl⟩ := hs
  intro y hy
  cases hl : l1 with
  | nil => rw [hl] at hy; simp at hy
  | cons a as =>
    apply h
    rw [List.getLast?_append_of_ne_nil t (by simp [hl])]
    exact hy

theorem lastNot_trimWs (l : List Char) : LastNot isJsWs (trimWs l) :=
  lastNot_of_suffix (List.dropWhile_suffix isJsWs) (lastNot_trimRightWs l)

theorem pairSep_trimWs {l : List Char} (h : PairSep isJsWs l) :
    PairSep isJsWs (trimWs l) := by
  apply pairSep_dropWhile
  rw [trimRightWs]
  exact pairSep_reverse (pairSep_dropWhile (pairSep_reverse h))

theorem trimRightWs_id {l : List Char} (h : LastNot isJsWs l) :
    trimRightWs l = l := by
  rw [trimRightWs, dropWhile_id, List.reverse_reverse]
  intro y hy
  rw [List.head?_reverse] at hy
  exact h y hy

/-- The invariant bundle satisfied by every output of `normalizeList`. -/
theorem normalizeList_invariants (l : List Char) :
    (∀ c ∈ normalizeList l, isJsWs c = true → c = ' ') ∧
      PairSep isJsWs (normalizeList l) ∧
      HeadNot isJsWs (normalizeList l) ∧
      LastNot isJsWs (normalizeList l) ∧
      (∀ c ∈ normalizeList l, c ≠ rlmChar) := by
  refine ⟨?_, ?_, ?_, ?_, ?_⟩
  · intro c hc hws
    exact collapseRunsAux_runClass (mem_trimWs_imp hc) hws
  · exact pairSep_trimWs (pairSep_collapseRunsAux _ false)
  · exact headNot_dropWhile _ _
  · exact lastNot_trimWs _
  · intro c hc
    rcases mem_collapseRunsAux (mem_trimWs_imp hc) with h1 | h1
    · rw [h1]; decide
    · exact bne_iff_ne.mp (List.mem_filter.mp h1).2

/-- `normalizeList` is the identity on lists satisfying its output
invariants. -/
theorem normalizeList_id {l : List Char}
    (h1 : ∀ c ∈ l, isJsWs c = true → c = ' ') (h2 : PairSep isJsWs l)
    (h3 : HeadNot isJsWs l) (h4 : LastNot isJsWs l)
    (h5 : ∀ c ∈ l, c ≠ rlmChar) : normalizeList l = l := by
  rw [normalizeList]
  have hf : l.filter (fun c => c != rlmChar) = l :=
    List.filter_eq_self.mpr (fun c hc => bne_iff_ne.mpr (h5 c hc))
  rw [hf]
  have hcol : collapseWs l = l := (collapseRunsAux_id h1 h2).1
  rw [trimWs, hcol, trimRightWs_id h4, dropWhile_id h3]

theorem normalizeList_idem (l : List Char) :
    normalizeList (normalizeList l) = normalizeList l := by
  obtain ⟨h1, h2, h3, h4, h5⟩ := normalizeList_invariants l
  exact normalizeList_id h1 h2 h3 h4 h5

theorem normalizeList_concat {c : Char} (hws : isJsWs c = false)
    (hrlm : c ≠ rlmChar) (l : List Char) :
    ∃ n, normalizeList (l ++ [c]) = n ++ [c] := by
  rw [normalizeList]
  have hf : (l ++ [c]).filter (fun d => d != rlmChar) =
      l.filter (fun d => d != rlmChar) ++ [c] := by
    rw [List.filter_append]
    simp [bne_iff_ne.mpr hrlm]
  rw [hf]
  obtain ⟨m, hm⟩ := collapseRunsAux_concat ' ' hws
    (l.filter (fun d => d != rlmChar)) false
  rw [collapseWs, collapseRuns, hm, trimWs, trimRightWs_concat hws]
  exact dropWhile_concat hws m

theorem stripList_concat {c c2 : Char} (hc : stripChar c = some c2)
    (hws : isJsWs c2 = false) (l : List Char) :
    ∃ n, stripList (l ++ [c]) = n ++ [c2] := by
  rw [stripList]
  have hf : (l ++ [c]).filterMap stripChar =
      l.filterMap stripChar ++ [c2] := by
    rw [List.filterMap_append]
    simp [List.filterMap, hc]
  rw [hf]
  obtain ⟨m, hm⟩ := collapseRunsAux_concat ' ' hws
    (l.filterMap stripChar) false
  rw [collapseWs, collapseRuns, hm, trimWs, trimRightWs_concat hws]
  exact dropWhile_concat hws m

/-- The word-splitting, capitalizing and rejoining tail of the fallback
romanizer and of the contextual finalizer preserves a trailing character
that is neither whitespace nor a space, up to uppercasing. -/
theorem splitCapJoin_concat {c : Char} (hc : c ≠ ' ') (l : List Char) :
    ∃ m c2, joinSpace ((splitOnSpace (l ++ [c])).map capitalizeWord) =
      m ++ [c2] ∧ (c2 = c ∨ c2 = c.toUpper) := by
  obtain ⟨ws, w, hw⟩ := splitOnSpace_concat hc l
  rw [hw, List.map_append, List.map_singleton]
  obtain ⟨m1, c2, hcap, hor⟩ := capitalizeWord_concat w c
  rw [hcap]
  obtain ⟨m2, hj⟩ := joinSpace_concat (ws.map capitalizeWord) (m1 ++ [c2])
  rw [hj]
  exact ⟨m2 ++ m1, c2, by simp, hor⟩

/-- `fallbackList` on text ending in taa marbuta ends in the letter a
(possibly uppercased). -/
theorem fallbackList_concat_taa (l : List Char) :
    ∃ m c2, fallbackList (l ++ ['ة']) = m ++ [c2] ∧ (c2 = 'a' ∨ c2 = 'A') := by
  rw [fallbackList]
  have hsc : stripChar 'ة' = some 'ة' := by decide
  have hsw : isJsWs 'ة' = false := by decide
  obtain ⟨n, hn⟩ := stripList_concat hsc hsw l
  rw [hn, concatMap_append]
  have hfb : concatMap fallbackChar ['ة'] = ['a'] := by decide
  rw [hfb]
  have haw : isJsWs 'a' = false := by decide
  obtain ⟨m, hm⟩ := collapseRunsAux_concat ' ' haw
    (concatMap fallbackChar n) false
  rw [collapseWs, collapseRuns, hm]
  have hasp : ('a' : Char) ≠ ' ' := by decide
  obtain ⟨m2, c2, hj, hor⟩ := splitCapJoin_concat hasp m
  refine ⟨m2, c2, hj, ?_⟩
  rcases hor with h | h
  · exact Or.inl h
  · exact Or.inr (by rw [h]; decide)

theorem data_mk (l : List Char) : (String.mk l).data = l := rfl

theorem mk_ne_empty {l : List Char} (h : l ≠ []) : String.mk l ≠ "" := by
  intro hc
  exact h (congrArg String.data hc)

theorem correctWord_ne_nil {w : List Char} (h : w ≠ []) :
    correctWord w ≠ [] := by
  rw [correctWord, if_neg h]
  cases hcor : corrections w with
  | some v => exact corrections_ne_nil hcor
  | none => exact capitalizeWord_ne_nil h

/-- `scientificList` of a list ending in the letter a or A is nonempty. -/
theorem scientificList_concat_ne_nil {c : Char} (hc : c = 'a' ∨ c = 'A')
    (l : List Char) : scientificList (l ++ [c]) ≠ [] := by
  have hpc : phonChar c = [c] := by rcases hc with rfl | rfl <;> decide
  have hcw : isJsWs c = false := by rcases hc with rfl | rfl <;> decide
  have hlow : c.toLower = 'a' := by rcases hc with rfl | rfl <;> decide
  rw [scientificList, concatMap_append]
  simp only [concatMap, hpc, List.append_nil]
  obtain ⟨m, hm⟩ := collapseRunsAux_concat ' ' hcw (concatMap phonChar l) false
  rw [collapseWs, collapseRuns, hm]
  obtain ⟨m2, hm2⟩ := trimWs_concat hcw m
  rw [hm2, List.map_append, List.map_singleton, hlow]
  have hna : ('a' : Char) ≠ ' ' := by decide
  obtain ⟨ws, w, hw⟩ := splitOnSpace_concat hna (m2.map Char.toLower)
  rw [hw, List.map_append, List.map_singleton]
  obtain ⟨m3, hj⟩ := joinSpace_concat (ws.map correctWord) (correctWord (w ++ ['a']))
  rw [hj]
  have : correctWord (w ++ ['a']) ≠ [] := correctWord_ne_nil (by simp)
  intro hcon
  rcases List.append_eq_nil.mp hcon with ⟨_, h2⟩
  exact this h2

theorem endsInA_decomp {l : List Char} (h : endsInA l = true) :
    ∃ t c, l = t ++ [c] ∧ (c = 'a' ∨ c = 'A') := by
  rw [endsInA] at h
  cases hg : l.getLast? with
  | none => rw [hg] at h; simp at h
  | some c =>
    rw [hg] at h
    obtain ⟨t, ht⟩ := exists_concat_of_getLast? hg
    refine ⟨t, c, ht, ?_⟩
    rcases Bool.or_eq_true_iff.mp h with h1 | h1
    · exact Or.inl (by simpa using h1)
    · exact Or.inr (by simpa using h1)

/-- The closing collapse-trim-capitalize step keeps a trailing letter a or
A, up to uppercasing. -/
theorem finalizeOut_concat {c : Char} (hc : c = 'a' ∨ c = 'A')
    (l : List Char) :
    ∃ m c2, finalizeOut (l ++ [c]) = m ++ [c2] ∧ (c2 = 'a' ∨ c2 = 'A') := by
  have hcw : isJsWs c = false := by rcases hc with rfl | rfl <;> decide
  have hcd : ((fun d => d == '-') c) = false := by rcases hc with rfl | rfl <;> decide
  have hcs : c ≠ ' ' := by rcases hc with rfl | rfl <;> decide
  rw [finalizeOut]
  obtain ⟨m, hm⟩ := collapseRunsAux_concat ' ' hcw l false
  rw [collapseWs, collapseRuns, hm]
  obtain ⟨m2, hm2⟩ :=
    collapseRunsAux_concat (p := fun d => d == '-') '-' hcd m false
  rw [collapseDashes, collapseRuns, hm2]
  obtain ⟨m3, hm3⟩ := trimWs_concat hcw m2
  rw [hm3]
  obtain ⟨m4, c2, hj, hor⟩ := splitCapJoin_concat hcs m3
  refine ⟨m4, c2, hj, ?_⟩
  rcases hor with h | h
  · rw [h]; exact hc
  · rw [h]; rcases hc with rfl | rfl
    · exact Or.inr (by decide)
    · exact Or.inr (by decide)

/-- When the trimmed original ends in taa marbuta, `applyRulesList`
produces output ending in the letter a or A, whatever the candidate. -/
theorem applyRulesList_taa {orig : List Char} (out0 : List Char)
    {t : List Char} (h : trimWs orig = t ++ ['ة']) :
    ∃ m c2, applyRulesList orig out0 = m ++ [c2] ∧ (c2 = 'a' ∨ c2 = 'A') := by
  rw [applyRulesList]
  simp only [h]
  have hLast : (t ++ ['ة']).getLast? = some 'ة' := List.getLast?_concat t
  rw [hLast]
  simp only [if_pos rfl]
  set out2 := if (t ++ ['ة']).contains shaddaChar then
      shaddaPass (t ++ ['ة']) (alRule (t ++ ['ة']) out0)
    else alRule (t ++ ['ة']) out0 with hout2
  by_cases hea : endsInA out2 = true
  · rw [if_pos hea]
    obtain ⟨t2, c, hdec, hor⟩ := endsInA_decomp hea
    rw [hdec]
    exact finalizeOut_concat hor t2
  · rw [if_neg hea]
    exact finalizeOut_concat (Or.inl rfl) out2

/-- The pipeline composition of `smartTransliterate` on nonempty input. -/
theorem smartTransliterate_pipeline (x : String) (h : x ≠ "") :
    smartTransliterate x =
      applyContextualRules (normalizeArabicKeepShadda x)
        (scientificToPhonetic (fallbackTransliterate
          (stripDiacritics (normalizeArabicKeepShadda x)))) := by
  rw [smartTransliterate, if_neg h]

theorem ws_ne_rlm {c : Char} (h : isJsWs c = true) : c ≠ rlmChar := by
  intro hc
  rw [hc] at h
  exact absurd h (by decide)

theorem collapseRunsAux_all_true {p : Char → Bool} {rep : Char}
    {l : List Char} (h : ∀ c ∈ l, p c = true) :
    collapseRunsAux p rep true l = [] := by
  induction l with
  | nil => rfl
  | cons d ds ih =>
    have hd : p d = true := h d (List.mem_cons_self d ds)
    simp only [collapseRunsAux, if_pos hd]
    exact ih (fun c hc => h c (List.mem_cons_of_mem _ hc))

/-- Normalizing a whitespace-only list yields the empty list. -/
theorem normalizeList_all_ws {l : List Char}
    (h : ∀ c ∈ l, isJsWs c = true) : normalizeList l = [] := by
  rw [normalizeList]
  have hf : l.filter (fun c => c != rlmChar) = l :=
    List.filter_eq_self.mpr (fun c hc => bne_iff_ne.mpr (ws_ne_rlm (h c hc)))
  rw [hf]
  cases l with
  | nil => decide
  | cons d ds =>
    have hd : isJsWs d = true := h d (List.mem_cons_self d ds)
    have hrest : collapseRunsAux isJsWs ' ' true ds = [] :=
      collapseRunsAux_all_true (fun c hc => h c (List.mem_cons_of_mem _ hc))
    have hcol : collapseWs (d :: ds) = [' '] := by
      simp only [collapseWs, collapseRuns, collapseRunsAux, if_pos hd, hrest]
      rfl
    rw [hcol]
    decide

/-- A benign resource always yields a string value from the scientific
stage. -/
theorem benign_computeScientific {lib : ExtLib} (h : BenignLib lib)
    (s : String) : ∃ t, computeScientific lib s = JsVal.str t := by
  obtain ⟨h1, h2⟩ := h
  unfold computeScientific
  split
  next v hw =>
    obtain ⟨t, rfl⟩ := h1 s v hw
    split
    next => exact ⟨t, rfl⟩
    next =>
      split
      next v2 hp =>
        obtain ⟨t2, rfl⟩ := h2 s v2 hp
        exact ⟨t2, rfl⟩
      next hp =>
        split
        next v3 hp3 => cases hp3
        next => exact ⟨"", rfl⟩
  next hw =>
    split
    next v2 hp =>
      obtain ⟨t2, rfl⟩ := h2 s v2 hp
      exact ⟨t2, rfl⟩
    next hp => exact ⟨"", rfl⟩

/-! Claim theorems. -/

/-- Claim C1: with the external transliteration resource absent (fallback
letter-map path only), smartTransliterate applied to the Arabic spelling
of Muhammad returns exactly the string "Muhammad", via the correction
dictionary after the base letter mapping m-h-m-d. -/
theorem c1_fallback_muhammad : smartTransliterate "محمد" = "Muhammad" := by
  decide

/-- Claim C2, counterexample: a resource that returns a truthy non-string
value makes smartTransliterate raise a TypeError to its caller (the
retried call result is assigned without a type check and then has
`.replace` invoked on it), refuting both the no-exception guarantee and
the fall-through to the fallback strategy. -/
theorem c2_counterexample_nonstring_raises :
    smartTransliterateWithLib (some truthyNonStringLib) "محمد" =
      Except.error () := by
  rw [smartTransliterateWithLib, if_neg (by decide)]
  rfl

/-- Claim C2, amended: resource throws never escape (every call site is
inside a try block) and resource misbehavior degrades through an empty
scientific string, never through the fallback letter map; whenever the
resource only ever returns string values, smartTransliterate returns a
string and raises no exception.  Only a truthy non-string return value
still lets a TypeError escape, as the counterexample shows. -/
theorem c2_amended_resource_failures (lib : ExtLib) (h : BenignLib lib)
    (text : String) :
    ∃ out, smartTransliterateWithLib (some lib) text = Except.ok out := by
  by_cases he : text = ""
  · exact ⟨"Nom vide", by rw [smartTransliterateWithLib, if_pos he]⟩
  · obtain ⟨t, hts⟩ :=
      benign_computeScientific h
        (stripDiacritics (normalizeArabicKeepShadda text))
    refine ⟨applyContextualRules (normalizeArabicKeepShadda text)
      (scientificToPhonetic t), ?_⟩
    rw [smartTransliterateWithLib, if_neg he]
    show (match scientificToPhoneticJs (computeScientific lib
        (stripDiacritics (normalizeArabicKeepShadda text))) with
      | .error e => Except.error e
      | .ok phonetic =>
        Except.ok (applyContextualRules (normalizeArabicKeepShadda text)
          phonetic)) = _
    rw [hts]
    rfl

theorem c2_amended_resource_failures_witness :
    BenignLib emptyStringLib ∧
      ∃ out, smartTransliterateWithLib (some emptyStringLib) "م" =
        Except.ok out := by
  have hb : BenignLib emptyStringLib := by
    refine ⟨fun s v hv => ⟨"", ?_⟩, fun s v hv => ⟨"", ?_⟩⟩
    · cases hv; rfl
    · cases hv; rfl
  exact ⟨hb, c2_amended_resource_failures emptyStringLib hb "م"⟩

/-- Claim C3: with the fallback romanizer, smartTransliterate applied to
the definite article plus the sun word shams returns a string whose
leading space-delimited token starts with "Ash-", not with "Al-". -/
theorem c3_sun_letter_assimilation :
    smartTransliterate "الشمس" = "Ash-shms" ∧
      beginsWith "Ash-".data (firstTok (smartTransliterate "الشمس").data) =
        true ∧
      beginsWith "Al-".data (firstTok (smartTransliterate "الشمس").data) =
        false := by
  decide

/-- Claim C4, counterexample: the moon-letter input returns "Alqmr", which
has neither an "Al-" nor an "Al " prefix, because the fallback letter map
never inserts a separator after the unassimilated article. -/
theorem c4_counterexample_no_hyphen_or_space :
    beginsWith "Al-".data (smartTransliterate "القمر").data = false ∧
      beginsWith "Al ".data (smartTransliterate "القمر").data = false := by
  decide

/-- Claim C4, amended: the moon-letter input keeps the unassimilated
article as a literal "Al" prefix with no following hyphen or space: the
output is exactly "Alqmr". -/
theorem c4_amended_moon_letter_plain_al :
    smartTransliterate "القمر" = "Alqmr" ∧
      beginsWith "Al".data (smartTransliterate "القمر").data = true := by
  decide

/-- Claim C5, counterexample: alef maksura followed by shadda yields "Y":
the contextual table maps alef maksura to "a" but the stripping stage
folds it to yaa, so the doubling rule looks for an "a" that is not in the
candidate and the output contains no doubled mapping at all. -/
theorem c5_counterexample_maksura_shadda :
    arabicToLatin 'ى' = some ['a'] ∧
      smartTransliterate (String.mk ['ى', shaddaChar]) = "Y" ∧
      containsCI ['a', 'a']
        (smartTransliterate (String.mk ['ى', shaddaChar])).data = false := by
  decide

/-- Claim C5, amended: for every letter of the shared table except alef
maksura, the input consisting of that letter immediately followed by
shadda produces output containing the doubled mapping, case-insensitively
(the word-initial capitalization of the finalizer can uppercase the first
half of the doubled pair). -/
theorem c5_amended_shadda_doubling (c : Char)
    (h : c ∈ mappedLettersNoMaksura) :
    containsCI (mappingOf c ++ mappingOf c)
      (smartTransliterate (String.mk [c, shaddaChar])).data = true := by
  fin_cases h <;> decide

theorem c5_amended_shadda_doubling_witness :
    'ب' ∈ mappedLettersNoMaksura ∧
      containsCI (mappingOf 'ب' ++ mappingOf 'ب')
        (smartTransliterate (String.mk ['ب', shaddaChar])).data = true :=
  ⟨by decide, c5_amended_shadda_doubling 'ب' (by decide)⟩

/-- Claim C6: for every input string whose last character is taa marbuta,
the output of smartTransliterate ends in a lowercase or uppercase letter
a. -/
theorem c6_taa_marbuta_final_a (s : String)
    (h : s.data.getLast? = some 'ة') :
    (smartTransliterate s).data.getLast? = some 'a' ∨
      (smartTransliterate s).data.getLast? = some 'A' := by
  obtain ⟨t, ht⟩ := exists_concat_of_getLast? h
  have hne : s ≠ "" := by
    intro hc
    rw [hc] at h
    exact absurd h (by decide)
  have htws : isJsWs 'ة' = false := by decide
  have htrlm : ('ة' : Char) ≠ rlmChar := by decide
  obtain ⟨n, hn⟩ := normalizeList_concat htws htrlm t
  have h1 : normalizeArabicKeepShadda s = String.mk (n ++ ['ة']) := by
    rw [normalizeArabicKeepShadda, if_neg hne, ht, hn]
  have hsc : stripChar 'ة' = some 'ة' := by decide
  obtain ⟨n2, hn2⟩ := stripList_concat hsc htws n
  have h2 : stripDiacritics (normalizeArabicKeepShadda s) =
      String.mk (n2 ++ ['ة']) := by
    rw [h1, stripDiacritics, if_neg (mk_ne_empty (by simp)), data_mk, hn2]
  obtain ⟨m, c2, hm, hor⟩ := fallbackList_concat_taa n2
  have h3 : fallbackTransliterate
      (stripDiacritics (normalizeArabicKeepShadda s)) =
      String.mk (m ++ [c2]) := by
    rw [h2, fallbackTransliterate, if_neg (mk_ne_empty (by simp)), data_mk,
      hm]
  have h4 : scientificToPhonetic (String.mk (m ++ [c2])) =
      String.mk (scientificList (m ++ [c2])) := by
    rw [scientificToPhonetic, if_neg (mk_ne_empty (by simp)), data_mk]
  have h5 : scientificList (m ++ [c2]) ≠ [] :=
    scientificList_concat_ne_nil hor m
  rw [smartTransliterate_pipeline s hne, h3, h4, h1]
  rw [applyContextualRules,
    if_neg (not_or.mpr ⟨mk_ne_empty (by simp), mk_ne_empty h5⟩)]
  simp only [data_mk]
  obtain ⟨t2, htw⟩ := trimWs_concat htws n
  obtain ⟨m2, c3, hrules, hor3⟩ :=
    applyRulesList_taa (scientificList (m ++ [c2])) htw
  rw [hrules, List.getLast?_concat]
  rcases hor3 with h | h
  · exact Or.inl (by rw [h])
  · exact Or.inr (by rw [h])

theorem c6_taa_marbuta_final_a_witness :
    ("مدرسة" : String).data.getLast? = some 'ة' ∧
      ((smartTransliterate "مدرسة").data.getLast? = some 'a' ∨
        (smartTransliterate "مدرسة").data.getLast? = some 'A') :=
  ⟨by decide, c6_taa_marbuta_final_a "مدرسة" (by decide)⟩

/-- Claim C7: for every nonempty input, smartTransliterate equals the
four-stage composition with the contextual corrector receiving the
diacritics-preserving normalized text as first argument and the
simplified romanization of the stripped normalized text as second. -/
theorem c7_pipeline_composition (x : String) (h : x ≠ "") :
    smartTransliterate x =
      applyContextualRules (normalizeArabicKeepShadda x)
        (scientificToPhonetic (fallbackTransliterate
          (stripDiacritics (normalizeArabicKeepShadda x)))) :=
  smartTransliterate_pipeline x h

theorem c7_pipeline_composition_witness :
    ("م" : String) ≠ "" ∧
      smartTransliterate "م" =
        applyContextualRules (normalizeArabicKeepShadda "م")
          (scientificToPhonetic (fallbackTransliterate
            (stripDiacritics (normalizeArabicKeepShadda "م")))) :=
  ⟨by decide, c7_pipeline_composition "م" (by decide)⟩

/-- Claim C8: the normalizer is idempotent on every string. -/
theorem c8_normalize_idempotent (s : String) :
    normalizeArabicKeepShadda (normalizeArabicKeepShadda s) =
      normalizeArabicKeepShadda s := by
  by_cases h : s = ""
  · rw [h]
    rfl
  · have hs : normalizeArabicKeepShadda s =
        String.mk (normalizeList s.data) := by
      rw [normalizeArabicKeepShadda, if_neg h]
    by_cases h2 : String.mk (normalizeList s.data) = ""
    · rw [hs, h2]
      rfl
    · rw [hs, normalizeArabicKeepShadda, if_neg h2, data_mk,
        normalizeList_idem]

/-- Claim C9: the empty (falsy) input returns the fixed sentinel string
"Nom vide" instead of raising. -/
theorem c9_empty_input_sentinel : smartTransliterate "" = "Nom vide" := rfl

/-- Claim C10: a nonempty input consisting only of whitespace passes the
raw falsy check, is trimmed to nothing by the normalizer, and every later
stage degrades to the empty string, so smartTransliterate returns the
empty string and not the sentinel. -/
theorem c10_whitespace_only_empty (s : String) (h1 : s ≠ "")
    (h2 : ∀ c ∈ s.data, isJsWs c = true) :
    smartTransliterate s = "" ∧ smartTransliterate s ≠ "Nom vide" := by
  have hn : normalizeArabicKeepShadda s = "" := by
    rw [normalizeArabicKeepShadda, if_neg h1, normalizeList_all_ws h2]
  have hres : smartTransliterate s = "" := by
    rw [smartTransliterate_pipeline s h1, hn]
    decide
  exact ⟨hres, by rw [hres]; decide⟩

theorem c10_whitespace_only_empty_witness :
    (" " : String) ≠ "" ∧ (∀ c ∈ (" " : String).data, isJsWs c = true) ∧
      (smartTransliterate " " = "" ∧ smartTransliterate " " ≠ "Nom vide") :=
  ⟨by decide, by decide, c10_whitespace_only_empty " " (by decide) (by decide)⟩
